import Mathlib

/-!
Verification development for the CEL constraint-extraction engine of
`packages/protoc-gen-es/src/cel-parser.ts`.

The expression tree mirrors the `Expr` protobuf message from
`@bufbuild/cel-spec` as the analyzer consumes it: an optional `exprKind`
discriminated union with cases `identExpr`, `selectExpr`, `constExpr` and
`callExpr`; all other cases, and an absent `exprKind`, are collapsed into
`otherKind` / `noKind`, since the analyzer treats them uniformly as
unrecognized.  Numeric constants are modelled over `Rat` (the analyzer
never computes with them, it only stores them; the JavaScript `Number`
conversion of int64/uint64 is modelled as exact).
-/

namespace CelParser

/-- The `constantKind` union of a CEL constant node, restricted to the cases
`extractConstant` distinguishes; every other case is `otherConst`. -/
inductive ConstantKind where
  | stringValue (v : String)
  | int64Value (v : Int)
  | uint64Value (v : Nat)
  | doubleValue (v : Rat)
  | boolValue (v : Bool)
  | otherConst
deriving DecidableEq

/-- A CEL expression node.  `noKind` is a node whose `exprKind` is unset;
`otherKind` is any `exprKind` case other than ident/select/const/call.
`selectExpr`'s operand is optional (proto3 message field), and `callExpr`'s
argument array may contain undefined entries, hence `Option Expr`. -/
inductive Expr where
  | identExpr (name : String)
  | selectExpr (operand : Option Expr) (field : String)
  | constExpr (constantKind : Option ConstantKind)
  | callExpr (fn : String) (args : List (Option Expr))
  | otherKind
  | noKind

/-- Type `LiteralValue = string | number | boolean` from the source. -/
inductive LiteralValue where
  | str (s : String)
  | num (q : Rat)
  | boolean (b : Bool)
deriving DecidableEq

/-- A `UnionBranch`: one alternative produced by a disjunction. -/
structure UnionBranch where
  readOnlyFields : List String
  literalFields : List (String × LiteralValue)
  nestedConstraints : List (String × List String)
deriving DecidableEq

/-- The `CELParseResult` record.  JavaScript `Record` objects are modelled as
association lists in key-insertion order (assignment updates in place,
new keys append at the end), matching `Object.keys` enumeration order. -/
structure CELParseResult where
  readOnlyFields : List String
  literalFields : List (String × LiteralValue)
  unsupportedFields : List String
  errors : List String
  nestedConstraints : List (String × List String)
  unionGroups : List UnionBranch
deriving DecidableEq

/-- Function `createEmptyResult` from the source. -/
def createEmptyResult : CELParseResult :=
  { readOnlyFields := []
    literalFields := []
    unsupportedFields := []
    errors := []
    nestedConstraints := []
    unionGroups := [] }

/-- JavaScript `string.includes(c)` for a single character `c`. -/
def jsIncludesChar (s : String) (c : Char) : Bool :=
  s.toList.contains c

/-- JavaScript `string.split(sep)` for a single-character separator, on the
character-list representation: `"a.b".split(".") = ["a","b"]`,
`"".split(".") = [""]`, `".".split(".") = ["",""]`. -/
def jsSplitChar (c : Char) : List Char → List (List Char)
  | [] => [[]]
  | x :: xs =>
    let rest := jsSplitChar c xs
    if x = c then [] :: rest
    else
      match rest with
      | g :: gs => (x :: g) :: gs
      | [] => [[x]]

/-- JavaScript `string.split(sep)` for a single-character separator. -/
def jsSplit (s : String) (c : Char) : List String :=
  (jsSplitChar c s.toList).map (fun l => String.mk l)

/-- The whitespace characters JavaScript `string.trim()` strips, restricted
to the ASCII ones an expression string can plausibly contain. -/
def isJsWhitespace (c : Char) : Bool :=
  c = ' ' ∨ c = '\t' ∨ c = '\n' ∨ c = '\r' ∨ c = '\x0b' ∨ c = '\x0c'

/-- JavaScript `string.trim()`. -/
def jsTrim (s : String) : String :=
  String.mk (((s.toList.dropWhile isJsWhitespace).reverse.dropWhile isJsWhitespace).reverse)

/-- Capitalize the first character of a word (the per-segment step of the
usual snake-to-camel transform). -/
def capitalizeWord (l : List Char) : List Char :=
  match l with
  | [] => []
  | x :: xs => x.toUpper :: xs

/-- Modelled from the spec: `snakeToCamel` lives in `util.js`, which is not
among the sources; the spec describes it as a pure transform from the
underscore-separated convention to camelCase by straightforward separator
removal with no special-casing.  Underscore-free names are left unchanged. -/
def snakeToCamel (s : String) : String :=
  match jsSplitChar '_' s.toList with
  | [] => s
  | first :: rest => String.mk (first ++ (rest.map capitalizeWord).flatten)

/-- JavaScript `record[key] = value` on a `Record`: update in place if the
key exists, otherwise append the new key at the end. -/
def recordSet (m : List (String × LiteralValue)) (k : String) (v : LiteralValue) :
    List (String × LiteralValue) :=
  if m.any (fun p => p.1 = k) then
    m.map (fun p => if p.1 = k then (p.1, v) else p)
  else
    m ++ [(k, v)]

/-- Operation `result.nestedConstraints[parent].push(child)`, creating the array if
absent (the `if (!result.nestedConstraints[parentField])` branch). -/
def recordPush (m : List (String × List String)) (p c : String) :
    List (String × List String) :=
  if m.any (fun q => q.1 = p) then
    m.map (fun q => if q.1 = p then (q.1, q.2 ++ [c]) else q)
  else
    m ++ [(p, [c])]

/-- Lookup in the association-list model of a `Record`. -/
def recordGet (m : List (String × LiteralValue)) (k : String) : Option LiteralValue :=
  (m.find? (fun p => p.1 = k)).map (fun p => p.2)

/-- Function `isThisIdentifier` from the source. -/
def isThisIdentifier : Expr → Bool
  | .identExpr name => name = "this"
  | _ => false

/-- The recursion of `extractFieldPath` from the source, on a present node.
Returns `none` where the source returns `null`; the JavaScript truthiness
test `if (operandPath)` is false for the empty string, hence the explicit
`p = ""` check. -/
def extractFieldPathE : Expr → Option String
  | .selectExpr operand field =>
    match operand with
    | none => none
    | some op =>
      match extractFieldPathE op with
      | none => if isThisIdentifier op then some field else none
      | some p => if p = "" then none else some (p ++ "." ++ field)
  | _ => none
termination_by structural e => e

/-- Function `extractFieldPath` from the source: its argument is `Expr | undefined`,
and `!expr?.exprKind` short-circuits on `undefined` (the recursive body is
`extractFieldPathE`). -/
def extractFieldPath : Option Expr → Option String
  | none => none
  | some e => extractFieldPathE e

/-- Function `extractConstant` from the source: string, int64/uint64 (converted to a
number), double and bool constants; everything else is `undefined`. -/
def extractConstant : Option Expr → Option LiteralValue
  | some (.constExpr (some ck)) =>
    match ck with
    | .stringValue v => some (.str v)
    | .int64Value v => some (.num (v : Rat))
    | .uint64Value v => some (.num (v : Rat))
    | .doubleValue v => some (.num v)
    | .boolValue v => some (.boolean v)
    | .otherConst => none
  | _ => none

/-- Function `addReadOnlyField` from the source: a dot-free path is pushed onto
`readOnlyFields`; otherwise only the first two (camel-cased) segments are
recorded under `nestedConstraints`. -/
def addReadOnlyField (fieldPath : String) (result : CELParseResult) : CELParseResult :=
  if ¬ jsIncludesChar fieldPath '.' then
    { result with readOnlyFields := result.readOnlyFields ++ [snakeToCamel fieldPath] }
  else
    match (jsSplit fieldPath '.').map snakeToCamel with
    | parentField :: childField :: _ =>
      { result with nestedConstraints := recordPush result.nestedConstraints parentField childField }
    | _ => result

/-- Function `processEqualityPair` from the source.  The `if (!field) return` guard
is JavaScript-truthy, so it also rejects the empty path. -/
def processEqualityPair (fieldExpr valueExpr : Option Expr) (result : CELParseResult) :
    CELParseResult :=
  match extractConstant valueExpr with
  | none => result
  | some constantValue =>
    match extractFieldPath fieldExpr with
    | none => result
    | some field =>
      if field = "" then result
      else if ¬ jsIncludesChar field '.' then
        { result with literalFields := recordSet result.literalFields (snakeToCamel field) constantValue }
      else
        addReadOnlyField field result

/-- Function `handleEquality` from the source: with exactly two operands, try the
pair in both orders; otherwise do nothing. -/
def handleEquality (args : List (Option Expr)) (result : CELParseResult) : CELParseResult :=
  match args with
  | [left, right] => processEqualityPair right left (processEqualityPair left right result)
  | _ => result

/-- Function `handleNegation` from the source: `!has(this.f)` and the optimized
`!this.f` record a read-only field; anything else is ignored.  The
`if (field)` truthiness guards reject `null` and the empty path. -/
def handleNegation (arg : Option Expr) (result : CELParseResult) : CELParseResult :=
  match arg with
  | none => result
  | some e =>
    match e with
    | .callExpr fn args =>
      match fn, args with
      | "has", [a] =>
        match extractFieldPath a with
        | some field => if field = "" then result else addReadOnlyField field result
        | none => result
      | _, _ => result
    | .selectExpr operand field =>
      match extractFieldPath (some (.selectExpr operand field)) with
      | some f => if f = "" then result else addReadOnlyField f result
      | none => result
    | .identExpr name =>
      match extractFieldPath (some (.identExpr name)) with
      | some f => if f = "" then result else addReadOnlyField f result
      | none => result
    | _ => result

/-- Function `hasBranchConstraints` from the source. -/
def hasBranchConstraints (result : CELParseResult) : Bool :=
  ¬ result.readOnlyFields.isEmpty ∨
    ¬ result.literalFields.isEmpty ∨
    ¬ result.nestedConstraints.isEmpty

mutual

/-- Function `visitExpr` from the source: dispatch on call nodes by operator,
no-op on everything else.  The `"_||_"` case is `handleOr args result`
with the body of `handleOr` spelled out, so that the mutual block is
structurally recursive; `handleOr` itself is defined right after the
block and `visitExpr_or` below restores the source's shape. -/
def visitExpr (e : Expr) (result : CELParseResult) : CELParseResult :=
  match e with
  | .callExpr fn args =>
    if fn = "!_" then handleNegation (args.headD none) result
    else if fn = "_==_" then handleEquality args result
    else if fn = "_&&_" then visitArgsAnd args result
    else if fn = "_||_" then
      let p := handleOrAux args [] result
      { p.2 with unionGroups := p.2.unionGroups ++ p.1 }
    else result
  | _ => result
termination_by structural e

/-- The loop body of `handleAnd` from the source: visit every defined
operand into the same result. -/
def visitArgsAnd (args : List (Option Expr)) (result : CELParseResult) : CELParseResult :=
  match args with
  | [] => result
  | none :: rest => visitArgsAnd rest result
  | some e :: rest => visitArgsAnd rest (visitExpr e result)

/-- The loop of `handleOr` from the source: each defined operand is visited
into a fresh empty result; non-empty branches are collected in order, and
each branch's errors are appended to the enclosing result. -/
def handleOrAux (args : List (Option Expr)) (branches : List UnionBranch)
    (result : CELParseResult) : List UnionBranch × CELParseResult :=
  match args with
  | [] => (branches, result)
  | none :: rest => handleOrAux rest branches result
  | some e :: rest =>
    let branchResult := visitExpr e createEmptyResult
    let nextBranches :=
      if hasBranchConstraints branchResult then
        branches ++ [{ readOnlyFields := branchResult.readOnlyFields
                       literalFields := branchResult.literalFields
                       nestedConstraints := branchResult.nestedConstraints }]
      else branches
    handleOrAux rest nextBranches
      { result with errors := result.errors ++ branchResult.errors }

end

/-- Function `handleOr` from the source: run the loop, then append the collected
branches to the enclosing result's `unionGroups`. -/
def handleOr (args : List (Option Expr)) (result : CELParseResult) : CELParseResult :=
  let p := handleOrAux args [] result
  { p.2 with unionGroups := p.2.unionGroups ++ p.1 }

/-- Function `handleAnd` from the source (its loop is `visitArgsAnd`). -/
def handleAnd (args : List (Option Expr)) (result : CELParseResult) : CELParseResult :=
  visitArgsAnd args result

/-- First-occurrence deduplication: `[...new Set(xs)]`. -/
def dedupFirstAux (seen : List String) : List String → List String
  | [] => []
  | x :: xs => if x ∈ seen then dedupFirstAux seen xs else x :: dedupFirstAux (x :: seen) xs

/-- Spread `[...new Set(xs)]`: keep the first occurrence of each element, in order. -/
def dedupFirst (xs : List String) : List String :=
  dedupFirstAux [] xs

/-- Function `deduplicateResult` from the source: dedup `readOnlyFields`,
`unsupportedFields` and each `nestedConstraints[parent]` list. -/
def deduplicateResult (result : CELParseResult) : CELParseResult :=
  { result with
    readOnlyFields := dedupFirst result.readOnlyFields
    unsupportedFields := dedupFirst result.unsupportedFields
    nestedConstraints := result.nestedConstraints.map (fun q => (q.1, dedupFirst q.2)) }

/-- Outcome of the external `parse` component: it either throws (with a
message), returns a parse result with no `expr`, or yields a tree. -/
inductive ParseOutcome where
  | failure (message : String)
  | noExpr
  | success (e : Expr)

/-- Function `parseCELExpression` from the source, parameterized by the external
parser (`parse` from `@bufbuild/cel` is an external collaborator).  A
blank string short-circuits before the parser is consulted; a parser
throw or a missing expression node records one error; otherwise the tree
is visited and the result deduplicated. -/
def parseCELExpressionWith (parse : String → ParseOutcome) (celExpression : String) :
    CELParseResult :=
  let result := createEmptyResult
  if jsTrim celExpression = "" then result
  else
    match parse celExpression with
    | .failure message =>
      { result with errors :=
          result.errors ++
            ["Failed to parse CEL expression \"" ++ celExpression ++ "\": " ++ message] }
    | .noExpr =>
      { result with errors := result.errors ++ ["No expression found in CEL: " ++ celExpression] }
    | .success e => deduplicateResult (visitExpr e result)

/-! Concrete expression trees as the external parser delivers them: a field
path `this.f` is a select chain rooted at the identifier `this`, operators
are calls named `!_`, `_==_`, `_&&_`, `_||_`, and the presence check is a
call named `has`. -/

/-- The tree of the path `this.f`. -/
def thisField (f : String) : Expr :=
  .selectExpr (some (.identExpr "this")) f

/-- The tree of `l == r`. -/
def eqNode (l r : Expr) : Expr :=
  .callExpr "_==_" [some l, some r]

/-- The tree of `!e`. -/
def notNode (e : Expr) : Expr :=
  .callExpr "!_" [some e]

/-- The tree of `has(e)`. -/
def hasNode (e : Expr) : Expr :=
  .callExpr "has" [some e]

/-- The tree of `a && b`. -/
def andNode (a b : Expr) : Expr :=
  .callExpr "_&&_" [some a, some b]

/-- The tree of `a || b`. -/
def orNode (a b : Expr) : Expr :=
  .callExpr "_||_" [some a, some b]

/-- A string constant node. -/
def strConst (s : String) : Expr :=
  .constExpr (some (.stringValue s))

/-- An int64 constant node. -/
def intConst (i : Int) : Expr :=
  .constExpr (some (.int64Value i))

/-- An external parser that succeeds on every input with the tree `e`,
standing in for `parse` on the one expression string a concrete claim is
about. -/
def constParse (e : Expr) : String → ParseOutcome :=
  fun _ => .success e

/-! Basic shape lemmas about the per-assertion handlers. -/

/-- A disjunction call node is handled exactly by `handleOr`. -/
theorem visitExpr_or (args : List (Option Expr)) (result : CELParseResult) :
    visitExpr (Expr.callExpr "_||_" args) result = handleOr args result := rfl

/-- Fact: `addReadOnlyField` only ever touches `readOnlyFields` and
`nestedConstraints`. -/
theorem addReadOnlyField_only_ro_nested (f : String) (r : CELParseResult) :
    (addReadOnlyField f r).literalFields = r.literalFields ∧
      (addReadOnlyField f r).errors = r.errors ∧
      (addReadOnlyField f r).unsupportedFields = r.unsupportedFields ∧
      (addReadOnlyField f r).unionGroups = r.unionGroups := by
  unfold addReadOnlyField
  split
  · exact ⟨rfl, rfl, rfl, rfl⟩
  · split
    · exact ⟨rfl, rfl, rfl, rfl⟩
    · exact ⟨rfl, rfl, rfl, rfl⟩

/-- On a dotted path, `addReadOnlyField` leaves `readOnlyFields` alone
(it records under `nestedConstraints` instead). -/
theorem addReadOnlyField_readOnlyFields_of_dot (f : String) (r : CELParseResult)
    (h : jsIncludesChar f '.' = true) :
    (addReadOnlyField f r).readOnlyFields = r.readOnlyFields := by
  unfold addReadOnlyField
  simp only [h]
  split
  · simp at *
  · split
    · rfl
    · rfl

/-- Fact: `handleNegation` is either a no-op or a single `addReadOnlyField`. -/
theorem handleNegation_cases (a : Option Expr) (r : CELParseResult) :
    handleNegation a r = r ∨ ∃ f, handleNegation a r = addReadOnlyField f r := by
  cases a with
  | none => exact Or.inl rfl
  | some e =>
    cases e with
    | callExpr fn args =>
      by_cases hfn : fn = "has"
      · subst hfn
        match args with
        | [] => exact Or.inl rfl
        | [a] =>
          rcases hf : extractFieldPath a with _ | f
          · left
            simp only [handleNegation, hf]
          · by_cases h0 : f = ""
            · left
              simp only [handleNegation, hf, h0, if_pos]
            · right
              refine ⟨f, ?_⟩
              simp only [handleNegation, hf]
              rw [if_neg h0]
        | a :: b :: rest =>
          left
          simp only [handleNegation]
      · left
        simp only [handleNegation]
        split
        · exact absurd rfl hfn
        · rfl
    | selectExpr operand field =>
      rcases hf : extractFieldPath (some (Expr.selectExpr operand field)) with _ | f
      · left
        simp only [handleNegation, hf]
      · by_cases h0 : f = ""
        · left
          simp only [handleNegation, hf, h0, if_pos]
        · right
          refine ⟨f, ?_⟩
          simp only [handleNegation, hf]
          rw [if_neg h0]
    | identExpr name =>
      rcases hf : extractFieldPath (some (Expr.identExpr name)) with _ | f
      · left
        simp only [handleNegation, hf]
      · by_cases h0 : f = ""
        · left
          simp only [handleNegation, hf, h0, if_pos]
        · right
          refine ⟨f, ?_⟩
          simp only [handleNegation, hf]
          rw [if_neg h0]
    | constExpr ck => exact Or.inl rfl
    | otherKind => exact Or.inl rfl
    | noKind => exact Or.inl rfl

/-- Fact: `processEqualityPair` is a no-op, a single literal-map write, or a
single `addReadOnlyField` on a dotted path. -/
theorem processEqualityPair_cases (fe ve : Option Expr) (r : CELParseResult) :
    processEqualityPair fe ve r = r ∨
      (∃ k v, processEqualityPair fe ve r = { r with literalFields := recordSet r.literalFields k v }) ∨
      (∃ f, jsIncludesChar f '.' = true ∧ processEqualityPair fe ve r = addReadOnlyField f r) := by
  rcases hc : extractConstant ve with _ | v
  · left
    simp only [processEqualityPair, hc]
  · rcases hf : extractFieldPath fe with _ | field
    · left
      simp only [processEqualityPair, hc, hf]
    · by_cases h0 : field = ""
      · left
        simp only [processEqualityPair, hc, hf, h0, if_pos]
      · by_cases hdot : jsIncludesChar field '.'
        · refine Or.inr (Or.inr ⟨field, hdot, ?_⟩)
          simp only [processEqualityPair, hc, hf]
          rw [if_neg h0, if_neg (by simp [hdot])]
        · refine Or.inr (Or.inl ⟨snakeToCamel field, v, ?_⟩)
          simp only [processEqualityPair, hc, hf]
          rw [if_neg h0, if_pos (by simp [hdot])]

/-- Fact: `handleNegation` never touches `literalFields`, `errors`,
`unsupportedFields` or `unionGroups`. -/
theorem handleNegation_untouched (a : Option Expr) (r : CELParseResult) :
    (handleNegation a r).literalFields = r.literalFields ∧
      (handleNegation a r).errors = r.errors ∧
      (handleNegation a r).unsupportedFields = r.unsupportedFields ∧
      (handleNegation a r).unionGroups = r.unionGroups := by
  rcases handleNegation_cases a r with h | ⟨f, h⟩
  · rw [h]
    exact ⟨rfl, rfl, rfl, rfl⟩
  · rw [h]
    exact addReadOnlyField_only_ro_nested f r

/-- Fact: `processEqualityPair` never touches `readOnlyFields`, `errors`,
`unsupportedFields` or `unionGroups` (a nested equality goes to
`nestedConstraints`, not to `readOnlyFields`). -/
theorem processEqualityPair_untouched (fe ve : Option Expr) (r : CELParseResult) :
    (processEqualityPair fe ve r).readOnlyFields = r.readOnlyFields ∧
      (processEqualityPair fe ve r).errors = r.errors ∧
      (processEqualityPair fe ve r).unsupportedFields = r.unsupportedFields ∧
      (processEqualityPair fe ve r).unionGroups = r.unionGroups := by
  rcases processEqualityPair_cases fe ve r with h | ⟨k, v, h⟩ | ⟨f, hdot, h⟩
  · rw [h]
    exact ⟨rfl, rfl, rfl, rfl⟩
  · rw [h]
    exact ⟨rfl, rfl, rfl, rfl⟩
  · rw [h]
    obtain ⟨_, h2, h3, h4⟩ := addReadOnlyField_only_ro_nested f r
    exact ⟨addReadOnlyField_readOnlyFields_of_dot f r hdot, h2, h3, h4⟩

/-- Fact: `handleEquality` never touches `readOnlyFields`, `errors`,
`unsupportedFields` or `unionGroups`. -/
theorem handleEquality_untouched (args : List (Option Expr)) (r : CELParseResult) :
    (handleEquality args r).readOnlyFields = r.readOnlyFields ∧
      (handleEquality args r).errors = r.errors ∧
      (handleEquality args r).unsupportedFields = r.unsupportedFields ∧
      (handleEquality args r).unionGroups = r.unionGroups := by
  match args with
  | [] => exact ⟨rfl, rfl, rfl, rfl⟩
  | [_] => exact ⟨rfl, rfl, rfl, rfl⟩
  | [l, rr] =>
    show (processEqualityPair rr l (processEqualityPair l rr r)).readOnlyFields = _ ∧ _
    obtain ⟨a1, a2, a3, a4⟩ := processEqualityPair_untouched l rr r
    obtain ⟨b1, b2, b3, b4⟩ := processEqualityPair_untouched rr l (processEqualityPair l rr r)
    exact ⟨b1.trans a1, b2.trans a2, b3.trans a3, b4.trans a4⟩
  | _ :: _ :: _ :: _ => exact ⟨rfl, rfl, rfl, rfl⟩

/-- A node that resolves to a field path is a select node, hence not a
constant node: the two orientations of an equality can never both fire. -/
theorem extractFieldPath_some_constant_none (l : Option Expr) (f : String)
    (h : extractFieldPath l = some f) : extractConstant l = none := by
  match l with
  | none => exact absurd h (by simp [extractFieldPath])
  | some (.selectExpr operand field) => rfl
  | some (.identExpr name) => exact absurd h (by simp [extractFieldPath, extractFieldPathE])
  | some (.constExpr ck) => exact absurd h (by simp [extractFieldPath, extractFieldPathE])
  | some (.callExpr fn args) => exact absurd h (by simp [extractFieldPath, extractFieldPathE])
  | some .otherKind => exact absurd h (by simp [extractFieldPath, extractFieldPathE])
  | some .noKind => exact absurd h (by simp [extractFieldPath, extractFieldPathE])

/-- Fact: `processEqualityPair` is a no-op when the value side is not a constant. -/
theorem processEqualityPair_noop_of_no_constant (fe ve : Option Expr) (r : CELParseResult)
    (hc : extractConstant ve = none) : processEqualityPair fe ve r = r := by
  simp only [processEqualityPair, hc]

/-- Fact: `processEqualityPair` is a no-op when the field side yields no usable
path (`null` or the falsy empty string). -/
theorem processEqualityPair_noop_of_no_path (fe ve : Option Expr) (r : CELParseResult)
    (hf : extractFieldPath fe = none ∨ extractFieldPath fe = some "") :
    processEqualityPair fe ve r = r := by
  rcases hc : extractConstant ve with _ | v
  · simp only [processEqualityPair, hc]
  · rcases hf with hf | hf
    · simp only [processEqualityPair, hc, hf]
    · simp only [processEqualityPair, hc, hf, if_pos]

/-! The visitor never records errors: `errors` only ever receives parse
diagnostics in `parseCELExpression` itself, and `handleOr` only forwards
the (always empty) errors of its branch results.  Proved by strong
induction on the size of the input, jointly for the three mutually
recursive functions. -/

/-- Joint errors-invariance for `visitExpr`, `visitArgsAnd` and
`handleOrAux`, by strong induction on node size. -/
theorem visit_errors_invariant :
    ∀ n : Nat,
      (∀ e r, sizeOf e ≤ n → (visitExpr e r).errors = r.errors) ∧
      (∀ args r, sizeOf args ≤ n → (visitArgsAnd args r).errors = r.errors) ∧
      (∀ args b r, sizeOf args ≤ n → ((handleOrAux args b r).2).errors = r.errors) := by
  intro n
  induction n using Nat.strong_induction_on with
  | _ n ih =>
    refine ⟨?_, ?_, ?_⟩
    · intro e r hn
      match e with
      | .identExpr _ => rfl
      | .selectExpr _ _ => rfl
      | .constExpr _ => rfl
      | .otherKind => rfl
      | .noKind => rfl
      | .callExpr fn args =>
        have hlt : sizeOf args < n := by
          simp only [Expr.callExpr.sizeOf_spec] at hn
          omega
        simp only [visitExpr]
        by_cases h1 : fn = "!_"
        · rw [if_pos h1]
          exact (handleNegation_untouched _ _).2.1
        · rw [if_neg h1]
          by_cases h2 : fn = "_==_"
          · rw [if_pos h2]
            exact (handleEquality_untouched _ _).2.1
          · rw [if_neg h2]
            by_cases h3 : fn = "_&&_"
            · rw [if_pos h3]
              exact (ih (sizeOf args) hlt).2.1 args r (le_refl _)
            · rw [if_neg h3]
              by_cases h4 : fn = "_||_"
              · rw [if_pos h4]
                have := (ih (sizeOf args) hlt).2.2 args [] r (le_refl _)
                simpa using this
              · rw [if_neg h4]
    · intro args r hn
      match args with
      | [] => rfl
      | none :: rest =>
        have hlt : sizeOf rest < n := by
          simp only [List.cons.sizeOf_spec] at hn
          omega
        simp only [visitArgsAnd]
        exact (ih (sizeOf rest) hlt).2.1 rest r (le_refl _)
      | some e :: rest =>
        have h1 : sizeOf e < n := by
          simp only [List.cons.sizeOf_spec, Option.some.sizeOf_spec] at hn
          omega
        have h2 : sizeOf rest < n := by
          simp only [List.cons.sizeOf_spec] at hn
          omega
        simp only [visitArgsAnd]
        rw [(ih (sizeOf rest) h2).2.1 rest _ (le_refl _),
          (ih (sizeOf e) h1).1 e r (le_refl _)]
    · intro args b r hn
      match args with
      | [] => rfl
      | none :: rest =>
        have hlt : sizeOf rest < n := by
          simp only [List.cons.sizeOf_spec] at hn
          omega
        simp only [handleOrAux]
        exact (ih (sizeOf rest) hlt).2.2 rest b r (le_refl _)
      | some e :: rest =>
        have h1 : sizeOf e < n := by
          simp only [List.cons.sizeOf_spec, Option.some.sizeOf_spec] at hn
          omega
        have h2 : sizeOf rest < n := by
          simp only [List.cons.sizeOf_spec] at hn
          omega
        have hbe : (visitExpr e createEmptyResult).errors = [] :=
          (ih (sizeOf e) h1).1 e createEmptyResult (le_refl _)
        simp only [handleOrAux]
        rw [(ih (sizeOf rest) h2).2.2 rest _ _ (le_refl _)]
        simp [hbe]

/-- The visitor itself never records an error. -/
theorem visitExpr_errors (e : Expr) (r : CELParseResult) :
    (visitExpr e r).errors = r.errors :=
  (visit_errors_invariant (sizeOf e)).1 e r (le_refl _)

/-- The `handleOr` loop leaves the enclosing `errors` unchanged (the branch
errors it forwards are always empty). -/
theorem handleOrAux_errors (args : List (Option Expr)) (b : List UnionBranch)
    (r : CELParseResult) : ((handleOrAux args b r).2).errors = r.errors :=
  (visit_errors_invariant (sizeOf args)).2.2 args b r (le_refl _)

/-- The `handleOr` loop only appends to `errors`: every other field of the
threaded result comes back unchanged. -/
theorem handleOrAux_snd_fields (args : List (Option Expr)) :
    ∀ (b : List UnionBranch) (r : CELParseResult),
      ((handleOrAux args b r).2).readOnlyFields = r.readOnlyFields ∧
        ((handleOrAux args b r).2).literalFields = r.literalFields ∧
        ((handleOrAux args b r).2).nestedConstraints = r.nestedConstraints ∧
        ((handleOrAux args b r).2).unsupportedFields = r.unsupportedFields ∧
        ((handleOrAux args b r).2).unionGroups = r.unionGroups := by
  induction args with
  | nil => intro b r; exact ⟨rfl, rfl, rfl, rfl, rfl⟩
  | cons a rest ih =>
    intro b r
    cases a with
    | none =>
      simp only [handleOrAux]
      exact ih b r
    | some e =>
      simp only [handleOrAux]
      exact ih _ _

/-- Fact: `handleOr` touches only `unionGroups` and `errors` of the enclosing
result. -/
theorem handleOr_untouched (args : List (Option Expr)) (r : CELParseResult) :
    (handleOr args r).readOnlyFields = r.readOnlyFields ∧
      (handleOr args r).literalFields = r.literalFields ∧
      (handleOr args r).nestedConstraints = r.nestedConstraints ∧
      (handleOr args r).unsupportedFields = r.unsupportedFields := by
  obtain ⟨h1, h2, h3, h4, _⟩ := handleOrAux_snd_fields args [] r
  exact ⟨h1, h2, h3, h4⟩

/-- A disjunction node visited into a fresh scope leaves the scope's three
direct constraint fields empty, so it never qualifies as a branch. -/
theorem hasBranchConstraints_or_node (innerArgs : List (Option Expr)) :
    hasBranchConstraints (visitExpr (Expr.callExpr "_||_" innerArgs) createEmptyResult) = false := by
  obtain ⟨h1, h2, h3, _⟩ := handleOr_untouched innerArgs createEmptyResult
  rw [visitExpr_or]
  simp only [hasBranchConstraints, h1, h2, h3]
  decide

/-- An operand that is itself a disjunction is skipped entirely by the
`handleOr` loop: it contributes no branch and no errors. -/
theorem handleOrAux_skip_or (innerArgs rest : List (Option Expr))
    (b : List UnionBranch) (r : CELParseResult) :
    handleOrAux (some (Expr.callExpr "_||_" innerArgs) :: rest) b r = handleOrAux rest b r := by
  simp only [handleOrAux]
  rw [hasBranchConstraints_or_node]
  rw [visitExpr_errors]
  simp [createEmptyResult]

/-- Variant of `handleOrAux_skip_or` for an inner disjunction at any
operand position. -/
theorem handleOrAux_skip_or_middle (innerArgs post : List (Option Expr)) :
    ∀ (pre : List (Option Expr)) (b : List UnionBranch) (r : CELParseResult),
      handleOrAux (pre ++ some (Expr.callExpr "_||_" innerArgs) :: post) b r =
        handleOrAux (pre ++ post) b r := by
  intro pre
  induction pre with
  | nil => intro b r; exact handleOrAux_skip_or innerArgs post b r
  | cons a pre ih =>
    intro b r
    cases a with
    | none =>
      simp only [List.cons_append, handleOrAux]
      exact ih b r
    | some e =>
      simp only [List.cons_append, handleOrAux]
      exact ih _ _

/-- JavaScript `record[k] = v` followed by a lookup of `k` yields `v`:
assignment to a key overwrites any earlier value for that key. -/
theorem recordGet_recordSet (m : List (String × LiteralValue)) (k : String) (v : LiteralValue) :
    recordGet (recordSet m k v) k = some v := by
  induction m with
  | nil => simp [recordSet, recordGet]
  | cons p m ih =>
    by_cases hpk : p.1 = k
    · simp [recordSet, recordGet, hpk]
    · by_cases hany : m.any (fun q => q.1 = k)
      · have hset : recordSet (p :: m) k v = p :: recordSet m k v := by
          simp [recordSet, hpk, hany]
        rw [hset]
        simpa [recordGet, hpk] using ih
      · have hset : recordSet (p :: m) k v = p :: (m ++ [(k, v)]) := by
          simp [recordSet, hpk, hany]
        have hset2 : recordSet m k v = m ++ [(k, v)] := by
          simp [recordSet, hany]
        rw [hset]
        simpa [recordGet, hpk, hset2] using ih

/-! The claims. -/

/-- C1 counterexample: analyzing `!has(this.a) && this.a == 0` puts the
field name `a` both into `readOnlyFields` and into `literalFields` of one
merged result, so presence-negation and equality-to-constant are not
mutually exclusive per field within a conjunctive scope. -/
theorem c1_counterexample_conjunction_shares_field :
    "a" ∈ (parseCELExpressionWith
        (constParse (andNode (notNode (hasNode (thisField "a")))
          (eqNode (thisField "a") (intConst 0)))) "c1").readOnlyFields ∧
      recordGet (parseCELExpressionWith
        (constParse (andNode (notNode (hasNode (thisField "a")))
          (eqNode (thisField "a") (intConst 0)))) "c1").literalFields "a" =
        some (LiteralValue.num 0) := by
  decide

/-- C1 (amended): exclusivity holds per single assertion, not per merged
scope: a negation node never writes `literalFields`, and an equality node
never writes `readOnlyFields`, so a result produced by one such node alone
has one of the two empty. -/
theorem c1_single_assertion_exclusive (fn : String) (args : List (Option Expr))
    (h : fn = "!_" ∨ fn = "_==_") :
    (visitExpr (Expr.callExpr fn args) createEmptyResult).readOnlyFields = [] ∨
      (visitExpr (Expr.callExpr fn args) createEmptyResult).literalFields = [] := by
  rcases h with h | h <;> subst h
  · right
    have he : visitExpr (Expr.callExpr "!_" args) createEmptyResult =
        handleNegation (args.headD none) createEmptyResult := rfl
    rw [he, (handleNegation_untouched _ _).1]
    rfl
  · left
    have he : visitExpr (Expr.callExpr "_==_" args) createEmptyResult =
        handleEquality args createEmptyResult := rfl
    rw [he, (handleEquality_untouched _ _).1]
    rfl

/-- C1 witness: the amended statement at the concrete negation of nothing. -/
theorem c1_single_assertion_exclusive_witness :
    (visitExpr (Expr.callExpr "!_" ([] : List (Option Expr))) createEmptyResult).readOnlyFields = [] ∨
      (visitExpr (Expr.callExpr "!_" ([] : List (Option Expr))) createEmptyResult).literalFields = [] :=
  c1_single_assertion_exclusive "!_" [] (Or.inl rfl)

/-- C2: a disjunction operand that is itself a disjunction contributes
nothing to the enclosing disjunction — no branch (its direct fields are
necessarily empty) and no propagated union groups; removing it from the
operand list leaves the analysis unchanged.  Flattening stops at one
level. -/
theorem c2_nested_disjunction_one_level (innerArgs pre post : List (Option Expr))
    (r : CELParseResult) :
    visitExpr (Expr.callExpr "_||_" (pre ++ some (Expr.callExpr "_||_" innerArgs) :: post)) r =
      visitExpr (Expr.callExpr "_||_" (pre ++ post)) r := by
  rw [visitExpr_or, visitExpr_or]
  simp only [handleOr]
  rw [handleOrAux_skip_or_middle innerArgs post pre]

/-- C3: `this.a == '' || this.b == 0` yields exactly two branches in
operand order with the stated literal maps and an otherwise empty result;
in general a disjunction leaves the enclosing direct fields untouched,
and an operand whose fresh-scope analysis has no direct constraints is
discarded (only its — always empty — errors are forwarded). -/
theorem c3_disjunction_contributes_only_unions :
    parseCELExpressionWith
        (constParse (orNode (eqNode (thisField "a") (strConst ""))
          (eqNode (thisField "b") (intConst 0)))) "c3" =
      { createEmptyResult with
          unionGroups := [
            { readOnlyFields := [], literalFields := [("a", LiteralValue.str "")],
              nestedConstraints := [] },
            { readOnlyFields := [], literalFields := [("b", LiteralValue.num 0)],
              nestedConstraints := [] } ] } ∧
    (∀ (args : List (Option Expr)) (r : CELParseResult),
      (handleOr args r).readOnlyFields = r.readOnlyFields ∧
        (handleOr args r).literalFields = r.literalFields ∧
        (handleOr args r).nestedConstraints = r.nestedConstraints ∧
        (handleOr args r).unsupportedFields = r.unsupportedFields) ∧
    (∀ (e : Expr) (rest : List (Option Expr)) (b : List UnionBranch) (r : CELParseResult),
      hasBranchConstraints (visitExpr e createEmptyResult) = false →
        handleOrAux (some e :: rest) b r =
          handleOrAux rest b
            { r with errors := r.errors ++ (visitExpr e createEmptyResult).errors }) := by
  refine ⟨by decide, handleOr_untouched, ?_⟩
  intro e rest b r h
  simp only [handleOrAux, h]
  simp

/-- C3 witness: the branch-discarding equation at a constraint-free
operand. -/
theorem c3_witness :
    handleOrAux [some Expr.noKind] [] createEmptyResult =
      handleOrAux [] []
        { createEmptyResult with
            errors := createEmptyResult.errors ++ (visitExpr Expr.noKind createEmptyResult).errors } :=
  c3_disjunction_contributes_only_unions.2.2 Expr.noKind [] [] createEmptyResult (by decide)

/-- C4: when the string is not blank and the external parser throws, or
returns no expression node, the result is the all-empty record plus
exactly one error message — never partially populated. -/
theorem c4_parse_failure_single_error (parse : String → ParseOutcome) (s : String)
    (htrim : ¬ jsTrim s = "") :
    (∀ msg, parse s = ParseOutcome.failure msg →
      parseCELExpressionWith parse s =
        { createEmptyResult with
            errors := ["Failed to parse CEL expression \"" ++ s ++ "\": " ++ msg] }) ∧
    (parse s = ParseOutcome.noExpr →
      parseCELExpressionWith parse s =
        { createEmptyResult with errors := ["No expression found in CEL: " ++ s] }) := by
  constructor
  · intro msg hp
    simp only [parseCELExpressionWith]
    rw [if_neg htrim, hp]
    rfl
  · intro hp
    simp only [parseCELExpressionWith]
    rw [if_neg htrim, hp]
    rfl

/-- C4 witness: a concrete failing parse. -/
theorem c4_parse_failure_single_error_witness :
    parseCELExpressionWith (fun _ => ParseOutcome.failure "boom") "x" =
      { createEmptyResult with
          errors := ["Failed to parse CEL expression \"" ++ "x" ++ "\": " ++ "boom"] } :=
  (c4_parse_failure_single_error (fun _ => ParseOutcome.failure "boom") "x" (by decide)).1
    "boom" rfl

/-- C5: two equalities pinning different literals to the same top-level
field under one conjunction resolve by last-write-wins with no error:
`this.field == '' && this.field == 0` gives `literalFields = {field: 0}`
and empty `errors`; in general a literal-map assignment overwrites the
previous value of its key. -/
theorem c5_last_literal_wins :
    parseCELExpressionWith
        (constParse (andNode (eqNode (thisField "field") (strConst ""))
          (eqNode (thisField "field") (intConst 0)))) "c5" =
      { createEmptyResult with literalFields := [("field", LiteralValue.num 0)] } ∧
    (∀ (m : List (String × LiteralValue)) (k : String) (v : LiteralValue),
      recordGet (recordSet m k v) k = some v) :=
  ⟨by decide, recordGet_recordSet⟩

/-- C6: an equality of a literal against a path of depth ≥ 2 records only
the second path segment under the first in `nestedConstraints`, drops the
literal, and discards segments beyond the second:
`this.parent.child.grandchild == ''` gives `{parent: ["child"]}` and empty
`literalFields`. -/
theorem c6_nested_equality_truncates :
    parseCELExpressionWith
        (constParse (eqNode
          (Expr.selectExpr (some (Expr.selectExpr (some (thisField "parent")) "child"))
            "grandchild")
          (strConst ""))) "c6" =
      { createEmptyResult with nestedConstraints := [("parent", ["child"])] } ∧
    (∀ (fe ve : Option Expr) (r : CELParseResult) (field : String) (v : LiteralValue),
      extractFieldPath fe = some field → jsIncludesChar field '.' = true →
        extractConstant ve = some v →
        processEqualityPair fe ve r = addReadOnlyField field r) ∧
    (∀ (f : String) (r : CELParseResult) (p c : String) (rest : List String),
      jsIncludesChar f '.' = true → (jsSplit f '.').map snakeToCamel = p :: c :: rest →
        addReadOnlyField f r =
          { r with nestedConstraints := recordPush r.nestedConstraints p c }) := by
  refine ⟨by decide, ?_, ?_⟩
  · intro fe ve r field v hf hdot hc
    have h0 : ¬ field = "" := by
      intro h
      subst h
      exact absurd hdot (by decide)
    simp only [processEqualityPair, hc, hf]
    rw [if_neg h0, if_neg (by simp [hdot])]
  · intro f r p c rest hdot hsplit
    unfold addReadOnlyField
    rw [if_neg (by simp [hdot]), hsplit]

/-- C6 witness: the nested-equality and truncation statements at the
concrete path `p.c`. -/
theorem c6_nested_equality_truncates_witness :
    processEqualityPair (some (Expr.selectExpr (some (thisField "p")) "c"))
        (some (strConst "x")) createEmptyResult =
      addReadOnlyField "p.c" createEmptyResult ∧
    addReadOnlyField "p.c" createEmptyResult =
      { createEmptyResult with
          nestedConstraints := recordPush createEmptyResult.nestedConstraints "p" "c" } :=
  ⟨c6_nested_equality_truncates.2.1 _ _ _ "p.c" (LiteralValue.str "x")
      (by decide) (by decide) (by decide),
    c6_nested_equality_truncates.2.2 "p.c" createEmptyResult "p" "c" [] (by decide) (by decide)⟩

/-- C7: the equality handler is symmetric — swapping the two operands of an
equality call gives the same result — and when neither orientation offers
a (field path, literal constant) pair the node contributes nothing. -/
theorem c7_equality_symmetric :
    (∀ (l r : Option Expr) (res : CELParseResult),
      handleEquality [l, r] res = handleEquality [r, l] res) ∧
    (∀ (l r : Option Expr) (res : CELParseResult),
      (extractConstant r = none ∨ extractFieldPath l = none ∨ extractFieldPath l = some "") →
      (extractConstant l = none ∨ extractFieldPath r = none ∨ extractFieldPath r = some "") →
      handleEquality [l, r] res = res) := by
  constructor
  · intro l r res
    show processEqualityPair r l (processEqualityPair l r res) =
      processEqualityPair l r (processEqualityPair r l res)
    rcases hcr : extractConstant r with _ | c
    · rw [processEqualityPair_noop_of_no_constant l r res hcr,
        processEqualityPair_noop_of_no_constant l r (processEqualityPair r l res) hcr]
    · rcases hfl : extractFieldPath l with _ | f
      · rw [processEqualityPair_noop_of_no_path l r res (Or.inl hfl),
          processEqualityPair_noop_of_no_path l r (processEqualityPair r l res) (Or.inl hfl)]
      · have hcl : extractConstant l = none := extractFieldPath_some_constant_none l f hfl
        rw [processEqualityPair_noop_of_no_constant r l (processEqualityPair l r res) hcl,
          processEqualityPair_noop_of_no_constant r l res hcl]
  · intro l r res h1 h2
    show processEqualityPair r l (processEqualityPair l r res) = res
    have e1 : processEqualityPair l r res = res := by
      rcases h1 with h | h | h
      · exact processEqualityPair_noop_of_no_constant l r res h
      · exact processEqualityPair_noop_of_no_path l r res (Or.inl h)
      · exact processEqualityPair_noop_of_no_path l r res (Or.inr h)
    have e2 : processEqualityPair r l res = res := by
      rcases h2 with h | h | h
      · exact processEqualityPair_noop_of_no_constant r l res h
      · exact processEqualityPair_noop_of_no_path r l res (Or.inl h)
      · exact processEqualityPair_noop_of_no_path r l res (Or.inr h)
    rw [e1, e2]

/-- C7 witness: two bare identifiers offer no (path, literal) pair in
either orientation, so the node contributes nothing. -/
theorem c7_equality_symmetric_witness :
    handleEquality [some (Expr.identExpr "x"), some (Expr.identExpr "y")] createEmptyResult =
      createEmptyResult :=
  c7_equality_symmetric.2 (some (Expr.identExpr "x")) (some (Expr.identExpr "y"))
    createEmptyResult (Or.inr (Or.inl (by decide))) (Or.inl (by decide))

/-- C8: `!has(sel)` and `!sel` are analyzed identically for every select
node `sel`; for a top-level field both give `readOnlyFields = ["field"]`;
and every other negation target — a missing argument, a constant, an
unrecognized or missing node kind, a bare identifier, a call other than
`has`, or a `has` call without exactly one argument — is ignored. -/
theorem c8_negation_forms_agree :
    (∀ (operand : Option Expr) (field : String) (r : CELParseResult),
      visitExpr (notNode (hasNode (Expr.selectExpr operand field))) r =
        visitExpr (notNode (Expr.selectExpr operand field)) r) ∧
    parseCELExpressionWith (constParse (notNode (hasNode (thisField "field")))) "c8a" =
      { createEmptyResult with readOnlyFields := ["field"] } ∧
    parseCELExpressionWith (constParse (notNode (thisField "field"))) "c8b" =
      { createEmptyResult with readOnlyFields := ["field"] } ∧
    (∀ r : CELParseResult, handleNegation none r = r) ∧
    (∀ (ck : Option ConstantKind) (r : CELParseResult),
      handleNegation (some (Expr.constExpr ck)) r = r) ∧
    (∀ r : CELParseResult, handleNegation (some Expr.otherKind) r = r) ∧
    (∀ r : CELParseResult, handleNegation (some Expr.noKind) r = r) ∧
    (∀ (name : String) (r : CELParseResult),
      handleNegation (some (Expr.identExpr name)) r = r) ∧
    (∀ (fn : String) (args : List (Option Expr)) (r : CELParseResult),
      ¬ fn = "has" → handleNegation (some (Expr.callExpr fn args)) r = r) ∧
    (∀ (args : List (Option Expr)) (r : CELParseResult),
      args.length ≠ 1 → handleNegation (some (Expr.callExpr "has" args)) r = r) := by
  refine ⟨?_, by decide, by decide, fun r => rfl, fun ck r => rfl, fun r => rfl,
    fun r => rfl, fun name r => rfl, ?_, ?_⟩
  · intro operand field r
    show handleNegation (some (hasNode (Expr.selectExpr operand field))) r =
      handleNegation (some (Expr.selectExpr operand field)) r
    rcases hf : extractFieldPath (some (Expr.selectExpr operand field)) with _ | f
    · simp only [handleNegation, hasNode, hf]
    · simp only [handleNegation, hasNode, hf]
  · intro fn args r h
    simp only [handleNegation]
    split
    · exact absurd rfl h
    · rfl
  · intro args r h
    match args with
    | [] => rfl
    | [a] => exact absurd rfl h
    | a :: b :: rest => rfl

/-- C8 witness: the two ignored-target statements at concrete calls. -/
theorem c8_negation_forms_agree_witness :
    handleNegation (some (Expr.callExpr "foo" [])) createEmptyResult = createEmptyResult ∧
      handleNegation (some (Expr.callExpr "has" [])) createEmptyResult = createEmptyResult :=
  ⟨c8_negation_forms_agree.2.2.2.2.2.2.2.2.1 "foo" [] createEmptyResult (by decide),
    c8_negation_forms_agree.2.2.2.2.2.2.2.2.2 [] createEmptyResult (by decide)⟩

/-- C9: a blank expression string short-circuits before the parser is
consulted: the result is all-empty with no error, and it does not depend
on the parser at all. -/
theorem c9_blank_short_circuits (p q : String → ParseOutcome) (s : String)
    (h : jsTrim s = "") :
    parseCELExpressionWith p s = createEmptyResult ∧
      parseCELExpressionWith p s = parseCELExpressionWith q s := by
  constructor
  · simp only [parseCELExpressionWith]
    rw [if_pos h]
  · simp only [parseCELExpressionWith]
    rw [if_pos h, if_pos h]

/-- C9 witness: whitespace-only input with a parser that would fail. -/
theorem c9_blank_short_circuits_witness :
    parseCELExpressionWith (fun _ => ParseOutcome.failure "e1") "  " = createEmptyResult ∧
      parseCELExpressionWith (fun _ => ParseOutcome.failure "e1") "  " =
        parseCELExpressionWith (fun _ => ParseOutcome.noExpr) "  " :=
  c9_blank_short_circuits (fun _ => ParseOutcome.failure "e1")
    (fun _ => ParseOutcome.noExpr) "  " (by decide)

/-- C10: post-visit deduplication touches only the top-level lists: the
repeated presence-negation inside a disjunction operand survives as a
duplicated entry in a branch's `readOnlyFields`, while the same repetition
at top level is deduplicated (and a repeated nested assertion is
deduplicated per parent); `deduplicateResult` never rewrites
`unionGroups`. -/
theorem c10_dedup_skips_branches :
    parseCELExpressionWith
        (constParse (orNode
          (andNode (notNode (hasNode (thisField "a"))) (notNode (hasNode (thisField "a"))))
          (eqNode (thisField "b") (intConst 0)))) "c10" =
      { createEmptyResult with
          unionGroups := [
            { readOnlyFields := ["a", "a"], literalFields := [], nestedConstraints := [] },
            { readOnlyFields := [], literalFields := [("b", LiteralValue.num 0)],
              nestedConstraints := [] } ] } ∧
    parseCELExpressionWith
        (constParse (andNode (notNode (hasNode (thisField "a")))
          (notNode (hasNode (thisField "a"))))) "c10b" =
      { createEmptyResult with readOnlyFields := ["a"] } ∧
    parseCELExpressionWith
        (constParse (andNode
          (eqNode (Expr.selectExpr (some (thisField "p")) "c") (strConst ""))
          (eqNode (Expr.selectExpr (some (thisField "p")) "c") (intConst 0)))) "c10c" =
      { createEmptyResult with nestedConstraints := [("p", ["c"])] } ∧
    (∀ r : CELParseResult, (deduplicateResult r).unionGroups = r.unionGroups) :=
  ⟨by decide, by decide, by decide, fun r => rfl⟩

end CelParser
